import Mathlib

set_option linter.unusedVariables false

/-
Shallow embedding of the fixed_point arithmetic template class and the
hw_reg hardware-register wrapper of this repository.

Machine integers of a raw storage type (int8_t .. uint64_t) are modelled as
mathematical integers together with an explicit two's-complement reduction
(`RawType.wrap`) applied wherever the C++ code performs a conversion or an
operation that can overflow.  Signed right shifts are arithmetic
(floor division, `Int.fdiv`); C++ integer division truncates toward zero
(`Int.tdiv`); bitwise AND on two's-complement values is `Int.land`.
Operations that are compile-time errors in the C++ source (using the widened
companion of a 64-bit raw type) are modelled with `Option`, `none` standing
for "does not compile".
-/

namespace FixedPointBits

/-- A raw storage integer type: signedness and total bit width.
Models the template parameter `T` of `fixed_point` (int8_t ... uint64_t). -/
structure RawType where
  sgn : Bool
  bits : Nat
deriving DecidableEq

/-- `std::numeric_limits<raw>::min ()`. -/
def RawType.minInt (t : RawType) : Int :=
  if t.sgn then -(2 ^ (t.bits - 1)) else 0

/-- `std::numeric_limits<raw>::max ()`. -/
def RawType.maxInt (t : RawType) : Int :=
  if t.sgn then 2 ^ (t.bits - 1) - 1 else 2 ^ t.bits - 1

/-- The integer is representable in the raw type. -/
def RawType.inRange (t : RawType) (x : Int) : Prop :=
  t.minInt ≤ x ∧ x ≤ t.maxInt

instance (t : RawType) (x : Int) : Decidable (t.inRange x) := by
  unfold RawType.inRange; infer_instance

/-- Two's-complement reduction of an integer into the raw type: the effect of
a C++ integer conversion (and of wrap-around on overflow) into this type. -/
def RawType.wrap (t : RawType) (x : Int) : Int :=
  if t.sgn then Int.emod (x + 2 ^ (t.bits - 1)) (2 ^ t.bits) - 2 ^ (t.bits - 1)
  else Int.emod x (2 ^ t.bits)

/-- The raw type is one of the eight stdint types the library specializes
`fixed_point_widened_raw_type` / `fixed_point_narrowed_raw_type` for. -/
def RawType.validBits (t : RawType) : Prop :=
  t.bits = 8 ∨ t.bits = 16 ∨ t.bits = 32 ∨ t.bits = 64

instance (t : RawType) : Decidable t.validBits := by
  unfold RawType.validBits; infer_instance

/-- `fixed_point_widened_raw_type`: the next-larger stdint type of the same
signedness; `none` models the `void` typedef for the 64-bit types. -/
def widenedRawType (t : RawType) : Option RawType :=
  if t.bits = 8 then some ⟨t.sgn, 16⟩
  else if t.bits = 16 then some ⟨t.sgn, 32⟩
  else if t.bits = 32 then some ⟨t.sgn, 64⟩
  else none

/-- `fixed_point_narrowed_raw_type`: the next-smaller stdint type of the same
signedness; `none` models the `void` typedef for the 8-bit types. -/
def narrowedRawType (t : RawType) : Option RawType :=
  if t.bits = 16 then some ⟨t.sgn, 8⟩
  else if t.bits = 32 then some ⟨t.sgn, 16⟩
  else if t.bits = 64 then some ⟨t.sgn, 32⟩
  else none

/-- A `fixed_point<T, I, F, W>` instantiation: raw storage type, integral
bit count, fractional bit count, widened flag. -/
structure FPType where
  raw : RawType
  I : Nat
  F : Nat
  W : Bool
deriving DecidableEq

/-- The static_asserts of the class body: integral raw type (one of the eight
specialized widths), `is_signed<T> + digits<T> == I + F` (which for those
widths is `I + F = bits`), and a nonzero integral bit count. -/
def FPType.valid (T : FPType) : Prop :=
  T.raw.validBits ∧ T.I + T.F = T.raw.bits ∧ 0 < T.I

instance (T : FPType) : Decidable T.valid := by
  unfold FPType.valid; infer_instance

/-- `widened_fixed_type = fixed_point<widened_raw_type, I*2, F*2, true>`;
`none` when the widened raw type is unavailable (compile-time error). -/
def widenedFixedType (T : FPType) : Option FPType :=
  (widenedRawType T.raw).map fun wr => ⟨wr, T.I * 2, T.F * 2, true⟩

/-- `narrowed_fixed_type = fixed_point<narrowed_raw_type, I/2, F/2, false>`;
`none` when the narrowed raw type is unavailable. -/
def narrowedFixedType (T : FPType) : Option FPType :=
  (narrowedRawType T.raw).map fun nr => ⟨nr, T.I / 2, T.F / 2, false⟩

/-- `fractional_mask = (raw_type (1) << fractional_bits) - 1`, computed with
the wrap-around overflow behavior of the machine arithmetic. -/
def fractional_mask (T : FPType) : Int :=
  T.raw.wrap (T.raw.wrap (2 ^ T.F) - 1)

/-- `integral_mask = ~fractional_mask` (two's-complement: `~x = -x - 1`). -/
def integral_mask (T : FPType) : Int :=
  T.raw.wrap (-(fractional_mask T) - 1)

/-- `cast<otherT>::from` for an integral `otherT`:
`static_cast<raw_type> (value) << fractional_bits`.
This is the raw value of a `fixed_point` constructed from the integer. -/
def cast_from_int (T : FPType) (n : Int) : Int :=
  T.raw.wrap (T.raw.wrap n * 2 ^ T.F)

/-- `cast<otherT>::to` for an integral `otherT`:
`static_cast<otherT> (value >> fractional_bits)` — the raw value arithmetic
right-shifted by `F` (floor), then converted to the destination type `S`. -/
def cast_to_int (S : RawType) (T : FPType) (v : Int) : Int :=
  S.wrap (Int.fdiv v (2 ^ T.F))

/-- The integer `n` fits in the `I` integral bits of the fixed-point type
(for a signed raw type one of the `I` bits is the sign bit). -/
def fitsIntegralBits (T : FPType) (n : Int) : Prop :=
  if T.raw.sgn then -(2 ^ (T.I - 1)) ≤ n ∧ n < 2 ^ (T.I - 1)
  else 0 ≤ n ∧ n < 2 ^ T.I

instance (T : FPType) (n : Int) : Decidable (fitsIntegralBits T n) := by
  unfold fitsIntegralBits; infer_instance

/-- `convert_to<destT, destI, destF, destW>`, branch `destF == F`:
convert the raw type only. -/
def convert_to_same (T D : FPType) (v : Int) : Int :=
  D.raw.wrap v

/-- `convert_to`, branch `destF > F`: cast to the destination raw type first,
then shift left by the difference (`static_cast<destT> (value) << (destF - F)`). -/
def convert_to_up (T D : FPType) (v : Int) : Int :=
  D.raw.wrap (D.raw.wrap v * 2 ^ (D.F - T.F))

/-- `convert_to`, branch `destF < F`: shift right by the difference first,
then cast (`static_cast<destT> (value >> (F - destF))`). -/
def convert_to_down (T D : FPType) (v : Int) : Int :=
  D.raw.wrap (Int.fdiv v (2 ^ (T.F - D.F)))

/-- `fixed_point::convert_to`, dispatching on the fractional bit counts as
the three `enable_if` overloads do. -/
def convert_to (T D : FPType) (v : Int) : Int :=
  if T.F = D.F then convert_to_same T D v
  else if T.F < D.F then convert_to_up T D v
  else convert_to_down T D v

/-- Follows the wording of the spec for claim C5 (the conversion rule between
two fixed-point types), to be compared with `convert_to` from the source:
more fractional bits — cast to destination raw width, then shift left by the
difference; fewer — shift right by the difference, then cast; equal — cast only. -/
def convert_to_claimed (T D : FPType) (v : Int) : Int :=
  if T.F < D.F then D.raw.wrap (D.raw.wrap v * 2 ^ (D.F - T.F))
  else if D.F < T.F then D.raw.wrap (Int.fdiv v (2 ^ (T.F - D.F)))
  else D.raw.wrap v

/-- Unary `operator -`: negate the raw storage (with wrap-around). -/
def fp_neg (T : FPType) (a : Int) : Int :=
  T.raw.wrap (-a)

/-- `operator ==`: compare raw storage. -/
def fp_eq (T : FPType) (a b : Int) : Bool :=
  a == b

/-- `operator !=`: compare raw storage. -/
def fp_ne (T : FPType) (a b : Int) : Bool :=
  a != b

/-- `operator <`: compare raw storage. -/
def fp_lt (T : FPType) (a b : Int) : Bool :=
  decide (a < b)

/-- `operator <=`: compare raw storage. -/
def fp_le (T : FPType) (a b : Int) : Bool :=
  decide (a ≤ b)

/-- `operator >`: compare raw storage. -/
def fp_gt (T : FPType) (a b : Int) : Bool :=
  decide (b < a)

/-- `operator >=`: compare raw storage. -/
def fp_ge (T : FPType) (a b : Int) : Bool :=
  decide (b ≤ a)

/-- `operator !`: raw storage equals zero. -/
def fp_not (T : FPType) (a : Int) : Bool :=
  a == 0

/-- `operator *` for two operands of the same non-widened type: the raws are
cast to the widened raw type and multiplied there; the result is a value of
the widened fixed type.  `none` models the static_assert failure when the
widened raw type is `void`. -/
def fp_mul (T : FPType) (a b : Int) : Option Int :=
  (widenedRawType T.raw).map fun wr => wr.wrap (wr.wrap a * wr.wrap b)

/-- `operator /` for two operands of the same non-widened type:
`(static_cast<widened_raw_type> (lhs.raw ()) << fractional_bits) / rhs.raw ()`,
the quotient then stored into the raw type of the result (same type as the
operands).  `none` models the compile error when the widened raw type is
`void`. -/
def fp_div (T : FPType) (a b : Int) : Option Int :=
  (widenedRawType T.raw).map fun wr =>
    T.raw.wrap (Int.tdiv (wr.wrap (wr.wrap a * 2 ^ T.F)) b)

/-- `operator /` for `widened / narrowed`:
`narrowed_fixed_type (lhs.raw () / rhs.raw (), FIXED_POINT_RAW)` — the widened
raw divided directly by the narrowed raw, the quotient stored into the
narrowed type.  `WT` is the widened type, `a` its raw, `b` the raw of a value
of its narrowed companion. -/
def fp_div_wn (WT : FPType) (a b : Int) : Option Int :=
  (narrowedFixedType WT).map fun NT => NT.raw.wrap (Int.tdiv a b)

/-- `operator /` for `widened / widened`:
`lhs / (narrowed_fixed_type) rhs` — the right operand is converted to the
narrowed companion, then the `widened / narrowed` overload is used. -/
def fp_div_ww (WT : FPType) (a b : Int) : Option Int :=
  match narrowedFixedType WT with
  | some NT => fp_div_wn WT a (convert_to WT NT b)
  | none => none

/-- Follows the wording of the spec for claim C2, to be compared with
`fp_div_wn` from the source: "the division first reduces both operands to the
narrowed (non-widened) representation and then performs plain raw/raw integer
division".  Here the right operand is already narrowed, so only the left one
is reduced. -/
def fp_div_wn_claimed (WT : FPType) (a b : Int) : Option Int :=
  (narrowedFixedType WT).map fun NT => NT.raw.wrap (Int.tdiv (convert_to WT NT a) b)

/-- `std::abs` / `std::fabs`: `val < 0 ? -val : val`, where `0` is converted
to the fixed-point type through the integral constructor and the comparison
and negation are the class operators. -/
def fp_abs (T : FPType) (a : Int) : Int :=
  if fp_lt T a (cast_from_int T 0) = true then fp_neg T a else a

/-- `std::trunc`: `a.raw () & a.integral_mask`, two's-complement bitwise AND. -/
def fp_trunc (T : FPType) (a : Int) : Int :=
  Int.land a (integral_mask T)

/-- `std::numeric_limits<fixed_point>::min ()`: the raw type's minimum,
used as a raw value. -/
def fixed_limits_min (T : FPType) : Int :=
  T.raw.minInt

/-- The signed 16.16 fixed-point type `fixed_point<int32_t, 16, 16>` used in
the compile tests. -/
def fx32_16_16 : FPType := ⟨⟨true, 32⟩, 16, 16, false⟩

/-- The signed 4.4 fixed-point type `fixed_point<int8_t, 4, 4>` used in the
compile tests. -/
def fx8_4_4 : FPType := ⟨⟨true, 8⟩, 4, 4, false⟩

/-- The widened companion of `fx8_4_4`: `fixed_point<int16_t, 8, 8, true>`. -/
def fx16_8_8_w : FPType := ⟨⟨true, 16⟩, 8, 8, true⟩

end FixedPointBits

namespace HwRegBits

/-- `hw_reg_var<T, void>`: embedded storage, a plain (volatile) field. -/
structure hw_reg_var_embedded (α : Type) where
  var : α

/-- `hw_reg_var<T, void>::read`: return the stored field. -/
def hw_reg_var_embedded.read {α : Type} (r : hw_reg_var_embedded α) : α :=
  r.var

/-- `hw_reg_var<T, void>::write`: store the value into the field. -/
def hw_reg_var_embedded.write {α : Type} (_r : hw_reg_var_embedded α) (v : α) :
    hw_reg_var_embedded α :=
  ⟨v⟩

/-- `hw_reg<T, R, W, void>`: the capability-gated wrapper over embedded
storage.  `R`/`W` are the compile-time CanRead/CanWrite flags. -/
structure hw_reg (α : Type) (R W : Bool) where
  var : hw_reg_var_embedded α

/-- `hw_reg::read`: dispatches on `can_read`; modelled by requiring the
evidence `R = true` that in C++ makes the call well-formed. -/
def hw_reg.read {α : Type} {R W : Bool} (r : hw_reg α R W) (_hR : R = true) : α :=
  r.var.read

/-- `hw_reg::write`: dispatches on `can_write`; modelled by requiring
`W = true`.  Returns the register itself (`*this`) with the new contents. -/
def hw_reg.write {α : Type} {R W : Bool} (r : hw_reg α R W) (v : α) (_hW : W = true) :
    hw_reg α R W :=
  ⟨r.var.write v⟩

/-- `hw_reg::operator +=`: `write (read (can_read) + val, can_write)`. -/
def hw_reg.addAssign {α : Type} [Add α] {R W : Bool} (r : hw_reg α R W) (v : α)
    (hR : R = true) (hW : W = true) : hw_reg α R W :=
  r.write (r.read hR + v) hW

/-- `hw_reg::operator -=`. -/
def hw_reg.subAssign {α : Type} [Sub α] {R W : Bool} (r : hw_reg α R W) (v : α)
    (hR : R = true) (hW : W = true) : hw_reg α R W :=
  r.write (r.read hR - v) hW

/-- `hw_reg::operator *=`. -/
def hw_reg.mulAssign {α : Type} [Mul α] {R W : Bool} (r : hw_reg α R W) (v : α)
    (hR : R = true) (hW : W = true) : hw_reg α R W :=
  r.write (r.read hR * v) hW

/-- `hw_reg::operator /=`. -/
def hw_reg.divAssign {α : Type} [Div α] {R W : Bool} (r : hw_reg α R W) (v : α)
    (hR : R = true) (hW : W = true) : hw_reg α R W :=
  r.write (r.read hR / v) hW

/-- `hw_reg::operator %=`. -/
def hw_reg.modAssign {α : Type} [Mod α] {R W : Bool} (r : hw_reg α R W) (v : α)
    (hR : R = true) (hW : W = true) : hw_reg α R W :=
  r.write (r.read hR % v) hW

/-- `hw_reg::operator ^=`. -/
def hw_reg.xorAssign {α : Type} [Xor α] {R W : Bool} (r : hw_reg α R W) (v : α)
    (hR : R = true) (hW : W = true) : hw_reg α R W :=
  r.write (r.read hR ^^^ v) hW

/-- `hw_reg::operator &=`. -/
def hw_reg.andAssign {α : Type} [AndOp α] {R W : Bool} (r : hw_reg α R W) (v : α)
    (hR : R = true) (hW : W = true) : hw_reg α R W :=
  r.write (r.read hR &&& v) hW

/-- `hw_reg::operator |=`. -/
def hw_reg.orAssign {α : Type} [OrOp α] {R W : Bool} (r : hw_reg α R W) (v : α)
    (hR : R = true) (hW : W = true) : hw_reg α R W :=
  r.write (r.read hR ||| v) hW

/-- `hw_reg::operator >>=`. -/
def hw_reg.shrAssign {α : Type} [ShiftRight α] {R W : Bool} (r : hw_reg α R W) (v : α)
    (hR : R = true) (hW : W = true) : hw_reg α R W :=
  r.write (r.read hR >>> v) hW

/-- `hw_reg::operator <<=`. -/
def hw_reg.shlAssign {α : Type} [ShiftLeft α] {R W : Bool} (r : hw_reg α R W) (v : α)
    (hR : R = true) (hW : W = true) : hw_reg α R W :=
  r.write (r.read hR <<< v) hW

/-- An embedded read-write register holding a given value. -/
def hw_reg_rw_of {α : Type} (s : α) : hw_reg α true true :=
  ⟨⟨s⟩⟩

end HwRegBits

namespace FixedPointBits

theorem one_le_two_pow_int (n : Nat) : (1:Int) ≤ 2 ^ n := by
  calc (1:Int) = 2 ^ 0 := (pow_zero 2).symm
  _ ≤ 2 ^ n := pow_le_pow_right₀ (by norm_num) (Nat.zero_le n)

theorem pow2_split (b : Nat) (hb : 0 < b) :
    (2:Int) ^ b = 2 ^ (b - 1) + 2 ^ (b - 1) := by
  obtain ⟨k, rfl⟩ : ∃ k, b = k + 1 := ⟨b - 1, by omega⟩
  rw [pow_succ, Nat.add_sub_cancel]; ring

theorem RawType.wrap_eq_of_inRange (t : RawType) (x : Int) (hb : 0 < t.bits)
    (h : t.inRange x) : t.wrap x = x := by
  obtain ⟨h1, h2⟩ := h
  have hsplit := pow2_split t.bits hb
  simp only [RawType.minInt, RawType.maxInt] at h1 h2
  unfold RawType.wrap
  cases hsgn : t.sgn
  · simp only [hsgn, Bool.false_eq_true, if_false] at h1 h2 ⊢
    exact Int.emod_eq_of_lt h1 (by linarith)
  · simp only [hsgn, if_true] at h1 h2 ⊢
    have hmod : Int.emod (x + 2 ^ (t.bits - 1)) (2 ^ t.bits) = x + 2 ^ (t.bits - 1) :=
      Int.emod_eq_of_lt (by linarith) (by linarith)
    rw [hmod]; ring

theorem RawType.zero_inRange (t : RawType) (hb : 0 < t.bits) : t.inRange 0 := by
  have h1 : (1:Int) ≤ 2 ^ (t.bits - 1) := one_le_two_pow_int _
  have h2 : (1:Int) ≤ 2 ^ t.bits := one_le_two_pow_int _
  unfold RawType.inRange RawType.minInt RawType.maxInt
  cases hsgn : t.sgn <;> simp <;> linarith

theorem RawType.inRange_mono {t s : RawType} {x : Int} (hsgn : s.sgn = t.sgn)
    (hbits : t.bits ≤ s.bits) (h : t.inRange x) : s.inRange x := by
  obtain ⟨h1, h2⟩ := h
  simp only [RawType.inRange, RawType.minInt, RawType.maxInt] at h1 h2 ⊢
  have hmono : (2:Int) ^ (t.bits - 1) ≤ 2 ^ (s.bits - 1) :=
    pow_le_pow_right₀ (by norm_num) (by omega)
  have hmono2 : (2:Int) ^ t.bits ≤ 2 ^ s.bits :=
    pow_le_pow_right₀ (by norm_num) hbits
  rw [hsgn]
  cases hsgn2 : t.sgn <;>
    simp only [hsgn2, Bool.false_eq_true, if_false, if_true] at h1 h2 ⊢
  · exact ⟨h1, by linarith⟩
  · exact ⟨by linarith, by linarith⟩

theorem widenedRawType_spec {t wr : RawType} (h : widenedRawType t = some wr) :
    (t.bits = 8 ∨ t.bits = 16 ∨ t.bits = 32) ∧ wr = ⟨t.sgn, 2 * t.bits⟩ := by
  unfold widenedRawType at h
  split_ifs at h with h1 h2 h3 <;> cases h
  · exact ⟨Or.inl h1, by rw [h1]⟩
  · exact ⟨Or.inr (Or.inl h2), by rw [h2]⟩
  · exact ⟨Or.inr (Or.inr h3), by rw [h3]⟩

theorem abs_le_of_inRange_signed {t : RawType} {x : Int} (hs : t.sgn = true)
    (h : t.inRange x) : |x| ≤ 2 ^ (t.bits - 1) := by
  obtain ⟨h1, h2⟩ := h
  simp only [RawType.minInt, RawType.maxInt, hs, if_true] at h1 h2
  exact abs_le.mpr ⟨h1, by linarith⟩

theorem bounds_of_inRange_unsigned {t : RawType} {x : Int} (hs : t.sgn = false)
    (h : t.inRange x) : 0 ≤ x ∧ x ≤ 2 ^ t.bits - 1 := by
  obtain ⟨h1, h2⟩ := h
  simp only [RawType.minInt, RawType.maxInt, hs, Bool.false_eq_true, if_false] at h1 h2
  exact ⟨h1, h2⟩

theorem mul_inRange_signed {a b : Int} {w : Nat} (hw : 1 ≤ w)
    (ha : |a| ≤ 2 ^ (w - 1)) (hb : |b| ≤ 2 ^ (w - 1)) :
    (RawType.mk true (2 * w)).inRange (a * b) := by
  have habs : |a * b| ≤ 2 ^ (w - 1) * 2 ^ (w - 1) := by
    rw [abs_mul]
    exact mul_le_mul ha hb (abs_nonneg b) (by positivity)
  have hone1 : (1:Int) ≤ 2 ^ (w - 1) := one_le_two_pow_int _
  have hone : (1:Int) ≤ 2 ^ (w - 1) * 2 ^ (w - 1) := by nlinarith
  have hpow : (2:Int) ^ (2 * w - 1) = 2 * (2 ^ (w - 1) * 2 ^ (w - 1)) := by
    have h : 2 * w - 1 = (w - 1) + ((w - 1) + 1) := by omega
    rw [h, pow_add, pow_add, pow_one]; ring
  have hlo := neg_le_of_abs_le habs
  have hhi := le_of_abs_le habs
  simp only [RawType.inRange, RawType.minInt, RawType.maxInt, if_true]
  constructor
  · rw [hpow]; linarith
  · rw [hpow]; linarith

theorem mul_inRange_unsigned {a b : Int} {w : Nat} (hw : 1 ≤ w)
    (ha0 : 0 ≤ a) (ha : a ≤ 2 ^ w - 1) (hb0 : 0 ≤ b) (hb : b ≤ 2 ^ w) :
    (RawType.mk false (2 * w)).inRange (a * b) := by
  have hone : (1:Int) ≤ 2 ^ w := one_le_two_pow_int _
  have hub : a * b ≤ (2 ^ w - 1) * 2 ^ w := mul_le_mul ha hb hb0 (by linarith)
  have hpow : (2:Int) ^ (2 * w) = 2 ^ w * 2 ^ w := by
    rw [two_mul, pow_add]
  simp only [RawType.inRange, RawType.minInt, RawType.maxInt,
    Bool.false_eq_true, if_false]
  constructor
  · exact mul_nonneg ha0 hb0
  · rw [hpow]; nlinarith

theorem valid_bits_pos {T : FPType} (hv : T.valid) : 0 < T.raw.bits := by
  have hb := hv.1
  unfold RawType.validBits at hb
  rcases hb with h | h | h | h <;> omega

theorem cast_from_int_zero (T : FPType) (hb : 0 < T.raw.bits) :
    cast_from_int T 0 = 0 := by
  unfold cast_from_int
  rw [RawType.wrap_eq_of_inRange T.raw 0 hb (T.raw.zero_inRange hb), zero_mul,
    RawType.wrap_eq_of_inRange T.raw 0 hb (T.raw.zero_inRange hb)]

/-- Claim C1: for two values of the same non-widened fixed-point type whose
widened raw type exists, the product has the widened companion type
`fixed_point<Raw2, 2 I, 2 F, true>` and its raw value is the exact, lossless
integer product of the two raw values, computed after widening both. -/
theorem claim_C1 (T : FPType) (wr : RawType) (a b : Int)
    (hv : T.valid) (hW : T.W = false)
    (hwr : widenedRawType T.raw = some wr)
    (ha : T.raw.inRange a) (hb : T.raw.inRange b) :
    widenedFixedType T = some ⟨wr, T.I * 2, T.F * 2, true⟩
    ∧ fp_mul T a b = some (a * b) := by
  obtain ⟨hbits, hwreq⟩ := widenedRawType_spec hwr
  have hbpos : 0 < T.raw.bits := valid_bits_pos hv
  have hwbits : wr.bits = 2 * T.raw.bits := by rw [hwreq]
  have hwsgn : wr.sgn = T.raw.sgn := by rw [hwreq]
  have hwbpos : 0 < wr.bits := by omega
  have hwa : wr.wrap a = a :=
    wr.wrap_eq_of_inRange a hwbpos
      (RawType.inRange_mono hwsgn (by omega) ha)
  have hwb : wr.wrap b = b :=
    wr.wrap_eq_of_inRange b hwbpos
      (RawType.inRange_mono hwsgn (by omega) hb)
  have hprod : wr.inRange (a * b) := by
    rw [hwreq]
    cases hsgn : T.raw.sgn
    · obtain ⟨ha0, ha1⟩ := bounds_of_inRange_unsigned hsgn ha
      obtain ⟨hb0, hb1⟩ := bounds_of_inRange_unsigned hsgn hb
      exact mul_inRange_unsigned (by omega) ha0 ha1 hb0 (by linarith)
    · exact mul_inRange_signed (by omega)
        (abs_le_of_inRange_signed hsgn ha) (abs_le_of_inRange_signed hsgn hb)
  constructor
  · unfold widenedFixedType
    rw [hwr, Option.map_some']
  · unfold fp_mul
    rw [hwr, Option.map_some', hwa, hwb,
      wr.wrap_eq_of_inRange (a * b) hwbpos hprod]

/-- Claim C1 witness: `fixed_point<int8_t, 4, 4>` values with raws 24 (1.5)
and 32 (2.0) multiply to the widened `fixed_point<int16_t, 8, 8, true>` with
raw 768. -/
theorem claim_C1_witness :
    fx8_4_4.valid ∧ fx8_4_4.W = false
    ∧ widenedRawType fx8_4_4.raw = some ⟨true, 16⟩
    ∧ fx8_4_4.raw.inRange 24 ∧ fx8_4_4.raw.inRange 32
    ∧ widenedFixedType fx8_4_4 = some ⟨⟨true, 16⟩, 8, 8, true⟩
    ∧ fp_mul fx8_4_4 24 32 = some 768 :=
  ⟨by decide, rfl, by decide, by decide, by decide,
    (claim_C1 fx8_4_4 ⟨true, 16⟩ 24 32 (by decide) rfl (by decide)
      (by decide) (by decide)).1,
    (claim_C1 fx8_4_4 ⟨true, 16⟩ 24 32 (by decide) rfl (by decide)
      (by decide) (by decide)).2⟩

/-- Claim C7: `std::abs` (and `fabs`) on a signed raw type gives the value
itself when the raw is nonnegative and the class negation otherwise; on an
unsigned raw type it is the identity. -/
theorem claim_C7 (T : FPType) (a : Int) (hv : T.valid) (ha : T.raw.inRange a) :
    (T.raw.sgn = true → fp_abs T a = if 0 ≤ a then a else fp_neg T a)
    ∧ (T.raw.sgn = false → fp_abs T a = a) := by
  have hbpos : 0 < T.raw.bits := valid_bits_pos hv
  unfold fp_abs fp_lt
  rw [cast_from_int_zero T hbpos]
  constructor
  · intro hs
    by_cases hneg : a < 0
    · rw [if_pos (by simpa using hneg), if_neg (by omega)]
    · rw [if_neg (by simpa using hneg), if_pos (by omega)]
  · intro hs
    obtain ⟨ha0, _⟩ := bounds_of_inRange_unsigned hs ha
    rw [if_neg (by simpa using not_lt.mpr ha0)]

/-- Claim C7 witness: signed `fixed_point<int32_t, 16, 16>` at raw -98304
(value -1.5) and unsigned `fixed_point<uint32_t, 16, 16>` at raw 98304. -/
theorem claim_C7_witness :
    fx32_16_16.valid ∧ fx32_16_16.raw.inRange (-98304)
    ∧ ((fx32_16_16.raw.sgn = true →
          fp_abs fx32_16_16 (-98304) =
            if (0:Int) ≤ -98304 then -98304 else fp_neg fx32_16_16 (-98304))
       ∧ (fx32_16_16.raw.sgn = false → fp_abs fx32_16_16 (-98304) = -98304))
    ∧ (FPType.mk ⟨false, 32⟩ 16 16 false).valid
    ∧ ((FPType.mk ⟨false, 32⟩ 16 16 false).raw.sgn = false →
         fp_abs ⟨⟨false, 32⟩, 16, 16, false⟩ 98304 = 98304) :=
  ⟨by decide, by decide,
    claim_C7 fx32_16_16 (-98304) (by decide) (by decide),
    by decide,
    (claim_C7 ⟨⟨false, 32⟩, 16, 16, false⟩ 98304 (by decide) (by decide)).2⟩

/-- Claim C8: equality of fixed-point values of one type is reflexive, and
every relational operator agrees with the corresponding comparison of the raw
storage values; in particular `a < b` iff `a.raw < b.raw`. -/
theorem claim_C8 (T : FPType) (a b : Int) (hv : T.valid)
    (ha : T.raw.inRange a) (hb : T.raw.inRange b) :
    fp_eq T a a = true
    ∧ (fp_lt T a b = true ↔ a < b)
    ∧ (fp_le T a b = true ↔ a ≤ b)
    ∧ (fp_gt T a b = true ↔ b < a)
    ∧ (fp_ge T a b = true ↔ b ≤ a)
    ∧ (fp_eq T a b = true ↔ a = b)
    ∧ (fp_ne T a b = true ↔ a ≠ b) := by
  unfold fp_eq fp_ne fp_lt fp_le fp_gt fp_ge
  refine ⟨by simp, by simp, by simp, by simp, by simp, by simp, by simp⟩

/-- Claim C8 witness: `fixed_point<int32_t, 16, 16>` raws -5 and 98304. -/
theorem claim_C8_witness :
    fx32_16_16.valid ∧ fx32_16_16.raw.inRange (-5) ∧ fx32_16_16.raw.inRange 98304
    ∧ fp_eq fx32_16_16 (-5) (-5) = true
    ∧ (fp_lt fx32_16_16 (-5) 98304 = true ↔ (-5:Int) < 98304) :=
  ⟨by decide, by decide, by decide,
    (claim_C8 fx32_16_16 (-5) 98304 (by decide) (by decide) (by decide)).1,
    (claim_C8 fx32_16_16 (-5) 98304 (by decide) (by decide) (by decide)).2.1⟩

/-- Claim C10: for a signed raw type, `std::abs` of the value whose raw is
`numeric_limits<Raw>::min ()` returns that same value: the class unary minus
negates the raw in two's-complement arithmetic, where `-MIN` wraps back to
`MIN`; `abs` therefore returns a negative result there. -/
theorem claim_C10 (T : FPType) (hv : T.valid) (hs : T.raw.sgn = true) :
    fp_neg T (fixed_limits_min T) = fixed_limits_min T
    ∧ fp_abs T (fixed_limits_min T) = fixed_limits_min T
    ∧ fixed_limits_min T < 0 := by
  have hbpos : 0 < T.raw.bits := valid_bits_pos hv
  have hppos : (0:Int) < 2 ^ (T.raw.bits - 1) := by positivity
  have hmin : fixed_limits_min T = -(2 ^ (T.raw.bits - 1)) := by
    unfold fixed_limits_min RawType.minInt
    rw [hs]; simp
  have hneg : fp_neg T (fixed_limits_min T) = fixed_limits_min T := by
    unfold fp_neg RawType.wrap
    rw [hs]; simp only [if_true]
    rw [hmin, neg_neg, ← pow2_split T.raw.bits hbpos]
    have h0 : Int.emod (2 ^ T.raw.bits) (2 ^ T.raw.bits) = 0 := Int.emod_self
    rw [h0]; ring
  refine ⟨hneg, ?_, by rw [hmin]; omega⟩
  unfold fp_abs fp_lt
  rw [cast_from_int_zero T hbpos, if_pos (by rw [hmin]; simpa using hppos), hneg]

/-- Claim C10 witness: `fixed_point<int32_t, 16, 16>`: the minimum raw is
-2147483648 and `abs` maps it to itself. -/
theorem claim_C10_witness :
    fx32_16_16.valid ∧ fx32_16_16.raw.sgn = true
    ∧ fixed_limits_min fx32_16_16 = -2147483648
    ∧ fp_abs fx32_16_16 (fixed_limits_min fx32_16_16) = fixed_limits_min fx32_16_16
    ∧ fixed_limits_min fx32_16_16 < 0 :=
  ⟨by decide, rfl, by decide,
    (claim_C10 fx32_16_16 (by decide) rfl).2.1,
    (claim_C10 fx32_16_16 (by decide) rfl).2.2⟩

theorem RawType.validBits_pos {t : RawType} (h : t.validBits) : 0 < t.bits := by
  unfold RawType.validBits at h
  rcases h with h | h | h | h <;> omega

/-- Claim C5: conversion between two fixed-point types casts first and shifts
left after when the destination has more fractional bits, shifts right first
and casts after when it has fewer, and only casts when they are equal —
`convert_to` agrees with the conversion rule as the spec words it. -/
theorem claim_C5 (T D : FPType) (v : Int) :
    convert_to T D v = convert_to_claimed T D v := by
  unfold convert_to convert_to_claimed convert_to_same convert_to_up convert_to_down
  rcases Nat.lt_trichotomy T.F D.F with h | h | h
  · rw [if_neg (by omega), if_pos h, if_pos h]
  · rw [if_pos h, if_neg (by omega), if_neg (by omega)]
  · rw [if_neg (by omega), if_neg (by omega), if_neg (by omega), if_pos h]

/-- Claim C4: constructing a fixed-point value from an integer `n` (of an
integer type `S`) and explicitly converting back to `S` computes
`(Raw) n << F >> F` converted to `S`, and this round-trips to `n` exactly
whenever `n` fits in the `I` integral bits. -/
theorem claim_C4 (T : FPType) (S : RawType) (n : Int)
    (hv : T.valid) (hS : S.validBits) (hn : S.inRange n) :
    cast_to_int S T (cast_from_int T n) =
      S.wrap (Int.fdiv (T.raw.wrap (T.raw.wrap n * 2 ^ T.F)) (2 ^ T.F))
    ∧ (fitsIntegralBits T n → cast_to_int S T (cast_from_int T n) = n) := by
  refine ⟨rfl, ?_⟩
  intro hfit
  have hbpos : 0 < T.raw.bits := valid_bits_pos hv
  have hSb : 0 < S.bits := RawType.validBits_pos hS
  obtain ⟨_, hIF, hI⟩ := hv
  have hF1 : (1:Int) ≤ 2 ^ T.F := one_le_two_pow_int _
  have hpowIF : (2:Int) ^ (T.I - 1) * 2 ^ T.F = 2 ^ (T.raw.bits - 1) := by
    rw [← pow_add]; congr 1; omega
  have hpowIF2 : (2:Int) ^ T.I * 2 ^ T.F = 2 ^ T.raw.bits := by
    rw [← pow_add, hIF]
  unfold fitsIntegralBits at hfit
  unfold cast_to_int cast_from_int
  cases hsgn : T.raw.sgn
  · simp only [hsgn, Bool.false_eq_true, if_false] at hfit
    obtain ⟨h0, h1⟩ := hfit
    have h1' : n ≤ 2 ^ T.I - 1 := by
      have := Int.add_one_le_iff.mpr h1; linarith
    have hmono : (2:Int) ^ T.I ≤ 2 ^ T.raw.bits :=
      pow_le_pow_right₀ (by norm_num) (by omega)
    have hnr : T.raw.inRange n := by
      unfold RawType.inRange RawType.minInt RawType.maxInt
      simp only [hsgn, Bool.false_eq_true, if_false]
      exact ⟨h0, by linarith⟩
    rw [T.raw.wrap_eq_of_inRange n hbpos hnr]
    have hub := mul_le_mul_of_nonneg_right h1' (by linarith : (0:Int) ≤ 2 ^ T.F)
    have hprod : T.raw.inRange (n * 2 ^ T.F) := by
      unfold RawType.inRange RawType.minInt RawType.maxInt
      simp only [hsgn, Bool.false_eq_true, if_false]
      constructor
      · exact mul_nonneg h0 (by linarith)
      · nlinarith
    rw [T.raw.wrap_eq_of_inRange _ hbpos hprod,
      Int.mul_fdiv_cancel n (by linarith : (2:Int) ^ T.F ≠ 0)]
    exact S.wrap_eq_of_inRange n hSb hn
  · simp only [hsgn, if_true] at hfit
    obtain ⟨h0, h1⟩ := hfit
    have h1' : n ≤ 2 ^ (T.I - 1) - 1 := by
      have := Int.add_one_le_iff.mpr h1; linarith
    have hmono : (2:Int) ^ (T.I - 1) ≤ 2 ^ (T.raw.bits - 1) :=
      pow_le_pow_right₀ (by norm_num) (by omega)
    have hnr : T.raw.inRange n := by
      unfold RawType.inRange RawType.minInt RawType.maxInt
      simp only [hsgn, if_true]
      exact ⟨by linarith, by linarith⟩
    rw [T.raw.wrap_eq_of_inRange n hbpos hnr]
    have hub := mul_le_mul_of_nonneg_right h1' (by linarith : (0:Int) ≤ 2 ^ T.F)
    have hlb := mul_le_mul_of_nonneg_right h0 (by linarith : (0:Int) ≤ 2 ^ T.F)
    have hprod : T.raw.inRange (n * 2 ^ T.F) := by
      unfold RawType.inRange RawType.minInt RawType.maxInt
      simp only [hsgn, if_true]
      constructor
      · nlinarith
      · nlinarith
    rw [T.raw.wrap_eq_of_inRange _ hbpos hprod,
      Int.mul_fdiv_cancel n (by linarith : (2:Int) ^ T.F ≠ 0)]
    exact S.wrap_eq_of_inRange n hSb hn

/-- Claim C4 witness: `fixed_point<int8_t, 4, 4>` from the int8_t value 5 and
back: 5 fits in 4 integral bits and round-trips exactly. -/
theorem claim_C4_witness :
    fx8_4_4.valid ∧ RawType.validBits ⟨true, 8⟩ ∧ RawType.inRange ⟨true, 8⟩ 5
    ∧ fitsIntegralBits fx8_4_4 5
    ∧ cast_to_int ⟨true, 8⟩ fx8_4_4 (cast_from_int fx8_4_4 5) = 5 :=
  ⟨by decide, by decide, by decide, by decide,
    (claim_C4 fx8_4_4 ⟨true, 8⟩ 5 (by decide) (by decide) (by decide)).2 (by decide)⟩

/-- Claim C3 counterexample: in `fixed_point<int8_t, 4, 4>`, dividing the
value with raw 127 by the value with raw 1, the pre-scaled widened quotient
is `(127 << 4) / 1 = 2032`, but the stored raw value of the result is the
int8_t reduction -16, not 2032 — the claimed unconditional equality of the
result raw with the widened quotient fails. -/
theorem claim_C3_counterexample :
    fp_div fx8_4_4 127 1 = some (-16)
    ∧ Int.tdiv ((127:Int) * 2 ^ (4:Nat)) 1 = 2032
    ∧ fp_div fx8_4_4 127 1 ≠ some (Int.tdiv ((127:Int) * 2 ^ (4:Nat)) 1) :=
  ⟨by decide, by decide, by decide⟩

/-- Claim C3 (amended): for two values of the same non-widened type, the
quotient has the same type; its raw value is `(widen (a.raw) << F) / b.raw` —
the dividend pre-scaled by `2^F` exactly (losslessly) in the widened raw
type — converted to the raw type, and it equals that quotient exactly
whenever the quotient fits in the raw type. -/
theorem claim_C3 (T : FPType) (wr : RawType) (a b : Int)
    (hv : T.valid) (hW : T.W = false)
    (hwr : widenedRawType T.raw = some wr)
    (ha : T.raw.inRange a) (hb : T.raw.inRange b) :
    fp_div T a b = some (T.raw.wrap (Int.tdiv (a * 2 ^ T.F) b))
    ∧ (T.raw.inRange (Int.tdiv (a * 2 ^ T.F) b) →
        fp_div T a b = some (Int.tdiv (a * 2 ^ T.F) b)) := by
  obtain ⟨hbits, hwreq⟩ := widenedRawType_spec hwr
  have hbpos : 0 < T.raw.bits := valid_bits_pos hv
  obtain ⟨_, hIF, hI⟩ := hv
  have hwbits : wr.bits = 2 * T.raw.bits := by rw [hwreq]
  have hwsgn : wr.sgn = T.raw.sgn := by rw [hwreq]
  have hwbpos : 0 < wr.bits := by omega
  have hwa : wr.wrap a = a :=
    wr.wrap_eq_of_inRange a hwbpos (RawType.inRange_mono hwsgn (by omega) ha)
  have hFle : (2:Int) ^ T.F ≤ 2 ^ (T.raw.bits - 1) :=
    pow_le_pow_right₀ (by norm_num) (by omega)
  have hF1 : (1:Int) ≤ 2 ^ T.F := one_le_two_pow_int _
  have hprod : wr.inRange (a * 2 ^ T.F) := by
    rw [hwreq]
    cases hsgn : T.raw.sgn
    · obtain ⟨ha0, ha1⟩ := bounds_of_inRange_unsigned hsgn ha
      have hFle2 : (2:Int) ^ T.F ≤ 2 ^ T.raw.bits :=
        pow_le_pow_right₀ (by norm_num) (by omega)
      exact mul_inRange_unsigned (by omega) ha0 ha1 (by linarith) hFle2
    · exact mul_inRange_signed (by omega) (abs_le_of_inRange_signed hsgn ha)
        (by rw [abs_of_nonneg (by linarith : (0:Int) ≤ 2 ^ T.F)]; exact hFle)
  have hwprod : wr.wrap (a * 2 ^ T.F) = a * 2 ^ T.F :=
    wr.wrap_eq_of_inRange _ hwbpos hprod
  constructor
  · unfold fp_div
    rw [hwr, Option.map_some', hwa, hwprod]
  · intro hq
    unfold fp_div
    rw [hwr, Option.map_some', hwa, hwprod,
      T.raw.wrap_eq_of_inRange _ hbpos hq]

/-- Claim C3 witness: `fixed_point<int8_t, 4, 4>`: raw 24 (1.5) divided by
raw 32 (2.0) gives raw `(24 << 4) / 32 = 12` (0.75), which fits. -/
theorem claim_C3_witness :
    fx8_4_4.valid ∧ fx8_4_4.W = false
    ∧ widenedRawType fx8_4_4.raw = some ⟨true, 16⟩
    ∧ fx8_4_4.raw.inRange 24 ∧ fx8_4_4.raw.inRange 32
    ∧ fx8_4_4.raw.inRange (Int.tdiv (24 * 2 ^ fx8_4_4.F) 32)
    ∧ fp_div fx8_4_4 24 32 = some (Int.tdiv (24 * 2 ^ fx8_4_4.F) 32)
    ∧ fp_div fx8_4_4 24 32 = some 12 :=
  ⟨by decide, rfl, by decide, by decide, by decide, by decide,
    (claim_C3 fx8_4_4 ⟨true, 16⟩ 24 32 (by decide) rfl (by decide) (by decide)
      (by decide)).2 (by decide),
    by decide⟩

/-- Claim C2 counterexample: for the widened type
`fixed_point<int16_t, 8, 8, true>` (widened companion of
`fixed_point<int8_t, 4, 4>`), dividing the widened raw 40 by the narrowed
raw 2, the code computes `40 / 2 = 20`; reducing both operands to the
narrowed representation first, as the claim states, would compute
`(40 >> 4) / 2 = 1`.  The code does not reduce the widened dividend. -/
theorem claim_C2_counterexample :
    fp_div_wn fx16_8_8_w 40 2 = some 20
    ∧ fp_div_wn_claimed fx16_8_8_w 40 2 = some 1
    ∧ fp_div_wn fx16_8_8_w 40 2 ≠ fp_div_wn_claimed fx16_8_8_w 40 2 :=
  ⟨by decide, by decide, by decide⟩

/-- Claim C2 (amended): `widened / narrowed` divides the widened raw directly
by the narrowed raw — only the divisor is in narrowed representation — and
`widened / widened` first converts only the right operand to the narrowed
companion and then does the same; in both cases the result has the narrowed
type, which is exactly the original non-widened type the widened type was
derived from. -/
theorem claim_C2 (WT NT : FPType) (a b : Int)
    (hv : WT.valid) (hW : WT.W = true)
    (hNT : narrowedFixedType WT = some NT) :
    fp_div_wn WT a b = some (NT.raw.wrap (Int.tdiv a b))
    ∧ fp_div_ww WT a b = some (NT.raw.wrap (Int.tdiv a (convert_to WT NT b)))
    ∧ (∀ T : FPType, T.W = false → widenedFixedType T = some WT →
        narrowedFixedType WT = some T) := by
  refine ⟨?_, ?_, ?_⟩
  · unfold fp_div_wn
    rw [hNT, Option.map_some']
  · simp only [fp_div_ww, fp_div_wn, hNT, Option.map_some']
  · intro T hTW hT
    obtain ⟨⟨tsgn, tbits⟩, TI, TF, TW⟩ := T
    unfold widenedFixedType at hT
    rw [Option.map_eq_some'] at hT
    obtain ⟨wr, hwr, hWT⟩ := hT
    obtain ⟨hbits, hwreq⟩ := widenedRawType_spec hwr
    simp only at hbits hwreq hTW
    subst hwreq
    subst hTW
    rw [← hWT]
    unfold narrowedFixedType narrowedRawType
    rcases hbits with h | h | h <;> subst h <;>
      simp [Nat.mul_div_cancel]

/-- Claim C2 witness: the widened `fixed_point<int16_t, 8, 8, true>` with
narrowed companion `fixed_point<int8_t, 4, 4>`; rawdividend 40, divisor 2. -/
theorem claim_C2_witness :
    fx16_8_8_w.valid ∧ fx16_8_8_w.W = true
    ∧ narrowedFixedType fx16_8_8_w = some fx8_4_4
    ∧ fp_div_wn fx16_8_8_w 40 2 = some (fx8_4_4.raw.wrap (Int.tdiv 40 2))
    ∧ fp_div_ww fx16_8_8_w 40 2 =
        some (fx8_4_4.raw.wrap (Int.tdiv 40 (convert_to fx16_8_8_w fx8_4_4 2)))
    ∧ (fx8_4_4.W = false → widenedFixedType fx8_4_4 = some fx16_8_8_w →
        narrowedFixedType fx16_8_8_w = some fx8_4_4) :=
  ⟨by decide, rfl, by decide,
    (claim_C2 fx16_8_8_w fx8_4_4 40 2 (by decide) rfl (by decide)).1,
    (claim_C2 fx16_8_8_w fx8_4_4 40 2 (by decide) rfl (by decide)).2.1,
    fun _ h => (claim_C2 fx16_8_8_w fx8_4_4 40 2 (by decide) rfl (by decide)).2.2
      fx8_4_4 rfl h⟩

theorem RawType.wrap_sub_dvd (t : RawType) (x : Int) :
    (2:Int) ^ t.bits ∣ t.wrap x - x := by
  unfold RawType.wrap
  cases hsgn : t.sgn <;>
    simp only [hsgn, Bool.false_eq_true, if_false, if_true]
  · have h : (2:Int) ^ t.bits ∣ x - Int.emod x (2 ^ t.bits) :=
      Int.dvd_sub_of_emod_eq rfl
    have h2 : Int.emod x (2 ^ t.bits) - x = -(x - Int.emod x (2 ^ t.bits)) := by
      ring
    rw [h2]; exact dvd_neg.mpr h
  · have h : (2:Int) ^ t.bits ∣
        (x + 2 ^ (t.bits - 1)) - Int.emod (x + 2 ^ (t.bits - 1)) (2 ^ t.bits) :=
      Int.dvd_sub_of_emod_eq rfl
    have h2 : Int.emod (x + 2 ^ (t.bits - 1)) (2 ^ t.bits) - 2 ^ (t.bits - 1) - x
        = -((x + 2 ^ (t.bits - 1)) - Int.emod (x + 2 ^ (t.bits - 1)) (2 ^ t.bits)) := by
      ring
    rw [h2]; exact dvd_neg.mpr h

theorem RawType.wrap_congr (t : RawType) {x y : Int}
    (h : (2:Int) ^ t.bits ∣ x - y) : t.wrap x = t.wrap y := by
  unfold RawType.wrap
  cases hsgn : t.sgn <;>
    simp only [hsgn, Bool.false_eq_true, if_false, if_true]
  · exact Int.emod_eq_emod_iff_emod_sub_eq_zero.mpr (Int.emod_eq_zero_of_dvd h)
  · have hmod : Int.emod (x + 2 ^ (t.bits - 1)) (2 ^ t.bits)
        = Int.emod (y + 2 ^ (t.bits - 1)) (2 ^ t.bits) := by
      apply Int.emod_eq_emod_iff_emod_sub_eq_zero.mpr
      have heq : (x + 2 ^ (t.bits - 1)) - (y + 2 ^ (t.bits - 1)) = x - y := by ring
      rw [heq]; exact Int.emod_eq_zero_of_dvd h
    rw [hmod]

theorem fractional_mask_eq (T : FPType) (hv : T.valid) :
    fractional_mask T = 2 ^ T.F - 1 := by
  have hbpos : 0 < T.raw.bits := valid_bits_pos hv
  have hF : T.F ≤ T.raw.bits - 1 := by
    obtain ⟨_, hIF, hI⟩ := hv; omega
  have hFb : (2:Int) ^ T.F ≤ 2 ^ (T.raw.bits - 1) :=
    pow_le_pow_right₀ (by norm_num) hF
  have hFb2 : (2:Int) ^ T.F ≤ 2 ^ T.raw.bits :=
    pow_le_pow_right₀ (by norm_num) (by omega)
  have h1 : (1:Int) ≤ 2 ^ T.F := one_le_two_pow_int _
  have h1b : (1:Int) ≤ 2 ^ (T.raw.bits - 1) := one_le_two_pow_int _
  have hcongr : fractional_mask T = T.raw.wrap (2 ^ T.F - 1) := by
    unfold fractional_mask
    apply T.raw.wrap_congr
    have heq : (T.raw.wrap (2 ^ T.F) - 1) - (2 ^ T.F - 1)
        = T.raw.wrap (2 ^ T.F) - 2 ^ T.F := by ring
    rw [heq]; exact T.raw.wrap_sub_dvd (2 ^ T.F)
  rw [hcongr]
  apply T.raw.wrap_eq_of_inRange _ hbpos
  unfold RawType.inRange RawType.minInt RawType.maxInt
  cases hsgn : T.raw.sgn <;>
    simp only [hsgn, Bool.false_eq_true, if_false, if_true]
  · exact ⟨by linarith, by linarith⟩
  · exact ⟨by linarith, by linarith⟩

theorem integral_mask_eq (T : FPType) (hv : T.valid) :
    integral_mask T =
      if T.raw.sgn = true then -(2 ^ T.F) else 2 ^ T.raw.bits - 2 ^ T.F := by
  have hbpos : 0 < T.raw.bits := valid_bits_pos hv
  have hF : T.F ≤ T.raw.bits - 1 := by
    obtain ⟨_, hIF, hI⟩ := hv; omega
  have hFb : (2:Int) ^ T.F ≤ 2 ^ (T.raw.bits - 1) :=
    pow_le_pow_right₀ (by norm_num) hF
  have hFb2 : (2:Int) ^ T.F ≤ 2 ^ T.raw.bits :=
    pow_le_pow_right₀ (by norm_num) (by omega)
  have h1 : (1:Int) ≤ 2 ^ T.F := one_le_two_pow_int _
  have h1b : (1:Int) ≤ 2 ^ (T.raw.bits - 1) := one_le_two_pow_int _
  unfold integral_mask
  rw [fractional_mask_eq T hv]
  have heq : -(2 ^ T.F - 1) - 1 = -(2:Int) ^ T.F := by ring
  rw [heq]
  cases hsgn : T.raw.sgn
  · rw [if_neg (by simp [hsgn])]
    have hcongr : T.raw.wrap (-(2 ^ T.F))
        = T.raw.wrap (2 ^ T.raw.bits - 2 ^ T.F) := by
      apply T.raw.wrap_congr
      have heq2 : -(2:Int) ^ T.F - (2 ^ T.raw.bits - 2 ^ T.F)
          = (-1) * 2 ^ T.raw.bits := by ring
      rw [heq2]; exact dvd_mul_left _ _
    rw [hcongr]
    apply T.raw.wrap_eq_of_inRange _ hbpos
    unfold RawType.inRange RawType.minInt RawType.maxInt
    simp only [hsgn, Bool.false_eq_true, if_false]
    exact ⟨by linarith, by linarith⟩
  · rw [if_pos rfl]
    apply T.raw.wrap_eq_of_inRange _ hbpos
    unfold RawType.inRange RawType.minInt RawType.maxInt
    simp only [hsgn, if_true]
    exact ⟨by linarith, by linarith⟩

/-- Claim C6: `trunc` keeps the type and its raw value is the raw
bitwise-ANDed with `integral_mask` (which clears the `F` fractional bits:
it is `-(2^F)` for a signed raw type, `2^bits - 2^F` for an unsigned one).
At `fixed_point<int32_t, 16, 16>` with value -1.5 (raw -98304) this yields
raw -131072 (the value -2.0), not the raw -65536 of the IEEE
round-toward-zero truncation -1.0 — the masking does not agree with IEEE
truncation for such negative values. -/
theorem claim_C6 (T : FPType) (a : Int) (hv : T.valid) (ha : T.raw.inRange a) :
    fp_trunc T a = Int.land a (integral_mask T)
    ∧ (T.raw.sgn = true → fp_trunc T a = Int.land a (-(2 ^ T.F)))
    ∧ (T.raw.sgn = false → fp_trunc T a = Int.land a (2 ^ T.raw.bits - 2 ^ T.F))
    ∧ fp_trunc fx32_16_16 (-98304) = -131072
    ∧ fp_trunc fx32_16_16 (-98304) ≠ -65536 := by
  refine ⟨rfl, ?_, ?_, by decide, by decide⟩
  · intro hs
    unfold fp_trunc
    rw [integral_mask_eq T hv, if_pos hs]
  · intro hs
    unfold fp_trunc
    rw [integral_mask_eq T hv, if_neg (by simp [hs])]

/-- Claim C6 witness: `fixed_point<int32_t, 16, 16>` at raw -98304 (-1.5). -/
theorem claim_C6_witness :
    fx32_16_16.valid ∧ fx32_16_16.raw.inRange (-98304)
    ∧ (fp_trunc fx32_16_16 (-98304) = Int.land (-98304) (integral_mask fx32_16_16)
       ∧ (fx32_16_16.raw.sgn = true →
            fp_trunc fx32_16_16 (-98304) = Int.land (-98304) (-(2 ^ fx32_16_16.F)))
       ∧ (fx32_16_16.raw.sgn = false →
            fp_trunc fx32_16_16 (-98304) =
              Int.land (-98304) (2 ^ fx32_16_16.raw.bits - 2 ^ fx32_16_16.F))
       ∧ fp_trunc fx32_16_16 (-98304) = -131072
       ∧ fp_trunc fx32_16_16 (-98304) ≠ -65536) :=
  ⟨by decide, by decide, claim_C6 fx32_16_16 (-98304) (by decide) (by decide)⟩

end FixedPointBits

namespace HwRegBits

/-- Claim C9: on an embedded-storage read-write register, every compound
assignment operator performs read-modify-write: starting from stored value
`s`, after `reg op= v` the stored value is `s op v`, and the operator returns
the register itself (with its new contents).  The operators demand both the
CanRead and the CanWrite capability, modelled by the `R = true` and
`W = true` evidence they consume. -/
theorem claim_C9 (α : Type) [Add α] [Sub α] [Mul α] [Div α] [Mod α] [Xor α]
    [AndOp α] [OrOp α] [ShiftRight α] [ShiftLeft α] (s v : α) :
    hw_reg.addAssign (hw_reg_rw_of s) v rfl rfl = hw_reg_rw_of (s + v)
    ∧ hw_reg.subAssign (hw_reg_rw_of s) v rfl rfl = hw_reg_rw_of (s - v)
    ∧ hw_reg.mulAssign (hw_reg_rw_of s) v rfl rfl = hw_reg_rw_of (s * v)
    ∧ hw_reg.divAssign (hw_reg_rw_of s) v rfl rfl = hw_reg_rw_of (s / v)
    ∧ hw_reg.modAssign (hw_reg_rw_of s) v rfl rfl = hw_reg_rw_of (s % v)
    ∧ hw_reg.xorAssign (hw_reg_rw_of s) v rfl rfl = hw_reg_rw_of (s ^^^ v)
    ∧ hw_reg.andAssign (hw_reg_rw_of s) v rfl rfl = hw_reg_rw_of (s &&& v)
    ∧ hw_reg.orAssign (hw_reg_rw_of s) v rfl rfl = hw_reg_rw_of (s ||| v)
    ∧ hw_reg.shrAssign (hw_reg_rw_of s) v rfl rfl = hw_reg_rw_of (s >>> v)
    ∧ hw_reg.shlAssign (hw_reg_rw_of s) v rfl rfl = hw_reg_rw_of (s <<< v) :=
  ⟨rfl, rfl, rfl, rfl, rfl, rfl, rfl, rfl, rfl, rfl⟩

/-- Claim C9 witness: a register over `Nat` holding 12, compound-assigned 5. -/
theorem claim_C9_witness :
    hw_reg.addAssign (hw_reg_rw_of (12:Nat)) 5 rfl rfl = hw_reg_rw_of 17
    ∧ hw_reg.subAssign (hw_reg_rw_of (12:Nat)) 5 rfl rfl = hw_reg_rw_of 7
    ∧ hw_reg.mulAssign (hw_reg_rw_of (12:Nat)) 5 rfl rfl = hw_reg_rw_of 60
    ∧ hw_reg.divAssign (hw_reg_rw_of (12:Nat)) 5 rfl rfl = hw_reg_rw_of 2
    ∧ hw_reg.modAssign (hw_reg_rw_of (12:Nat)) 5 rfl rfl = hw_reg_rw_of 2
    ∧ hw_reg.xorAssign (hw_reg_rw_of (12:Nat)) 5 rfl rfl = hw_reg_rw_of 9
    ∧ hw_reg.andAssign (hw_reg_rw_of (12:Nat)) 5 rfl rfl = hw_reg_rw_of 4
    ∧ hw_reg.orAssign (hw_reg_rw_of (12:Nat)) 5 rfl rfl = hw_reg_rw_of 13
    ∧ hw_reg.shrAssign (hw_reg_rw_of (12:Nat)) 5 rfl rfl = hw_reg_rw_of 0
    ∧ hw_reg.shlAssign (hw_reg_rw_of (12:Nat)) 5 rfl rfl = hw_reg_rw_of 384 :=
  claim_C9 Nat 12 5

end HwRegBits
